import Mathlib

/-!
Verification of the late-interaction (MaxSim) scoring and ranking engine of
the ColBERT retriever in `neural_cherche/retrieve/colbert.py`.

Token embeddings are modelled as lists of rational vectors (`List (List ℚ)`,
shape `[S, D]`): exact arithmetic stands in for `float32`.  The torch tensor
operations appearing in the source are modelled by their documented semantics
on these lists:

* `torch.stack` on a list of `[Sd, D]` tensors requires a non-empty list of
  tensors of identical shape, and fails otherwise;
* `torch.einsum("sh,bth->bst", q, docs)` produces
  `out[b][s][t] = dot (q[s]) (docs[b][t])`;
* `.max(dim=2)` fails when the reduced dimension has size zero (the common
  document-token count of the stacked batch), and otherwise takes the maximum
  over that axis;
* `.sum(axis=1)` sums over the query-token axis (an empty axis sums to `0`);
* `torch.cat` fails on an empty list of tensors;
* `torch.topk(input, k)` fails when `k < 0` or `k` exceeds the input length,
  and otherwise returns the `k` largest entries (with their indices) in
  descending value order.  The relative order of equal values is not specified
  by its documentation; the executable model below realises one valid choice
  (equal values in increasing index order).

Fallible operations return `Option`: `none` is a raised runtime error.
-/

namespace NeuralCherche

/-- A token embedding vector (one row of a `[S, D]` tensor). -/
abbrev Vec := List ℚ

/-- A per-token embedding sequence for one document or query: shape `[S, D]`. -/
abbrev Emb := List Vec

/-- Inner product of two embedding vectors, `dot(u, v) = ∑ h, u[h] * v[h]`. -/
def dot (u v : Vec) : ℚ := (List.zipWith (· * ·) u v).sum

/-- Option-valued traversal of a list: `some` of the mapped list when `f`
succeeds everywhere, `none` as soon as `f` fails anywhere.  This is how a
raised error inside a python loop aborts the whole loop. -/
def optMap (f : α → Option β) : List α → Option (List β)
  | [] => some []
  | a :: as =>
    match f a, optMap f as with
    | some b, some bs => some (b :: bs)
    | _, _ => none

/-- Fuel-indexed worker for `batchify`. -/
def batchifyAux (bs : Nat) : Nat → List α → List (List α)
  | 0, _ => []
  | _ + 1, [] => []
  | fuel + 1, x :: xs => (x :: xs).take bs :: batchifyAux bs fuel ((x :: xs).drop bs)

/-- Modelled from the spec: `utils.batchify` (used at line 158 of
`neural_cherche/retrieve/colbert.py`) is not under `src/`.  Per the spec the
orchestrator splits the stored documents "into batches of a caller-configured
batch size" whose concatenation equals store iteration order: consecutive
chunks of `bs` documents, in store order. -/
def batchify (bs : Nat) (xs : List α) : List (List α) :=
  batchifyAux bs xs.length xs

/-- `torch.stack(tensors, dim=0)` (line 163): requires a non-empty list of
tensors, all of identical shape; returns the batch unchanged (as a list of
`[Sd, D]` slices), else fails.  Shape of a `[Sd, D]` tensor is captured by its
list of row lengths. -/
def stack (tensors : List Emb) : Option (List Emb) :=
  match tensors with
  | [] => none
  | e :: es =>
    if _h : ∀ x ∈ es, x.map List.length = e.map List.length then some (e :: es)
    else none

/-- Maximum over document tokens of `dot qv ·`: the `dim=2` reduction of
`torch.einsum("sh,bth->bst", ...).max(dim=2)` at one `(b, s)` cell, realised
as the left fold torch performs over a non-empty axis.  (The `[]` case is
never reached in the pipeline: the caller checks the axis is non-empty.) -/
def maxTokD (qv : Vec) : Emb → ℚ
  | [] => 0
  | t :: ts => ts.foldl (fun a u => max a (dot qv u)) (dot qv t)

/-- Score of one document against one query, lines 175-183 applied to a batch
of one: `einsum("sh,bth->bst").max(dim=2).values.sum(axis=1)`.  Fails when the
document-token axis is empty (torch: reduction over a zero-size dim); an empty
query-token axis sums to `0`. -/
def maxSimScore (q d : Emb) : Option ℚ :=
  match d with
  | [] => none
  | t :: ts => some ((q.map (fun qv => maxTokD qv (t :: ts))).sum)

/-- Score vector of one batch of documents (lines 163-183): stack the batch,
then `einsum("sh,bth->bst").max(dim=2).values.sum(axis=1)` row by row.  After
a successful `stack` all documents of the batch share one token count, so the
`max(dim=2)` error (zero-size axis) is exactly the per-document `maxSimScore`
error. -/
def scoreBatch (q : Emb) (b : List Emb) : Option (List ℚ) :=
  match stack b with
  | none => none
  | some bs => optMap (maxSimScore q) bs

/-- Full score vector of one query over the stored documents (lines 149-185):
batchify the store, score each batch, `torch.cat` the per-batch score vectors
(which fails on an empty store: `torch.cat` of an empty tensor list). -/
def queryScores (q : Emb) (docs : List Emb) (bs : Nat) : Option (List ℚ) :=
  match docs with
  | [] => none
  | x :: xs => (optMap (scoreBatch q) (batchify bs (x :: xs))).map List.flatten

/-- A metadata value stored inside a document record (python dict values). -/
inductive Val where
  | str : String → Val
  | num : ℚ → Val
deriving DecidableEq, Repr

/-- A document record: a python dict, modelled as an insertion-ordered
association list with unique keys; lookup takes the first match. -/
abbrev Record := List (String × Val)

/-- `{**r, k: v}` (line 214): a copy of dict `r` with key `k` bound to `v` —
updated in place when `k` is already a key of `r`, appended otherwise. -/
def setKey (r : Record) (k : String) (v : Val) : Record :=
  if (r.lookup k).isSome then r.map (fun p => if p.1 = k then (k, v) else p)
  else r ++ [(k, v)]

/-- Comparison used to model `torch.topk` values-descending output: larger
value first, equal values in increasing index order (one valid realisation of
the unspecified tie order). -/
def rankRel (a b : ℕ × ℚ) : Prop :=
  b.2 < a.2 ∨ (a.2 = b.2 ∧ a.1 ≤ b.1)

instance rankRel.decRel : DecidableRel rankRel := fun a b =>
  inferInstanceAs (Decidable (b.2 < a.2 ∨ (a.2 = b.2 ∧ a.1 ≤ b.1)))

instance rankRel.total : IsTotal (ℕ × ℚ) rankRel where
  total a b := by
    rcases lt_trichotomy a.2 b.2 with h | h | h
    · exact Or.inr (Or.inl h)
    · rcases Nat.le_total a.1 b.1 with h1 | h1
      · exact Or.inl (Or.inr ⟨h, h1⟩)
      · exact Or.inr (Or.inr ⟨h.symm, h1⟩)
    · exact Or.inl (Or.inl h)

instance rankRel.trans : IsTrans (ℕ × ℚ) rankRel where
  trans a b c hab hbc := by
    rcases hab with h1 | ⟨h1, h1'⟩
    · rcases hbc with h2 | ⟨h2, h2'⟩
      · exact Or.inl (lt_trans h2 h1)
      · exact Or.inl (by rw [← h2]; exact h1)
    · rcases hbc with h2 | ⟨h2, h2'⟩
      · exact Or.inl (by rw [h1]; exact h2)
      · exact Or.inr ⟨h1.trans h2, le_trans h1' h2'⟩

/-- Descending order on scores (the order of `torch.topk` values). -/
def descRel (a b : ℚ) : Prop := b ≤ a

instance descRel.decRel : DecidableRel descRel := fun a b =>
  inferInstanceAs (Decidable (b ≤ a))

instance descRel.total : IsTotal ℚ descRel := ⟨fun a b => le_total b a⟩

instance descRel.trans : IsTrans ℚ descRel := ⟨fun _ _ _ h1 h2 => le_trans h2 h1⟩

instance descRel.antisymm : IsAntisymm ℚ descRel := ⟨fun _ _ h1 h2 => le_antisymm h2 h1⟩

/-- The score vector with its indices attached, `[(0, qs[0]), (1, qs[1]), ...]`. -/
def enumScores (qs : List ℚ) : List (ℕ × ℚ) :=
  (List.range qs.length).map (fun i => (i, qs.getD i 0))

/-- `torch.topk(input=qs, k)` (line 206): fails when `k < 0` or `k` exceeds
the input length; otherwise the `k` largest `(index, value)` pairs, values
descending. -/
def torchTopk (qs : List ℚ) (k : Int) : Option (List (ℕ × ℚ)) :=
  if k < 0 ∨ (qs.length : Int) < k then none
  else some ((List.insertionSort rankRel (enumScores qs)).take k.toNat)

/-- The `k` argument passed to `torch.topk` at line 208:
`min(k, len(documents)) if k is not None else len(documents)`. -/
def rankK (documents : List Record) (k : Option Int) : Int :=
  match k with
  | none => (documents.length : Int)
  | some kk => min kk (documents.length : Int)

/-- One iteration of the loop of `_rank` (lines 205-217): top-k over one
query's score vector, then `{**documents[indice], "similarity": similarity}`
for each selected index. -/
def rankOne (documents : List Record) (qs : List ℚ) (k : Option Int) :
    Option (List Record) :=
  (torchTopk qs (rankK documents k)).map
    (List.map (fun p => setKey (documents.getD p.1 []) "similarity" (Val.num p.2)))

/-- `_rank(scores, documents, k)` (lines 189-219): one ranked list per
query score vector. -/
def colbertRank (documents : List Record) (scores : List (List ℚ))
    (k : Option Int) : Option (List (List Record)) :=
  optMap (fun qs => rankOne documents qs k) scores

/-- The retriever's store: `self.documents` (records, insertion order) and
`self.documents_embeddings` (an insertion-ordered dict, identifier to
embedding), as initialised at lines 93-94. -/
structure Store where
  documents : List Record
  documents_embeddings : List (String × Emb)
deriving DecidableEq

/-- One iteration of the loop of `add` (lines 109-113): when `document_key`
is not yet a key of `self.documents_embeddings`, append the record
`{self.key: document_key}` and bind the embedding; otherwise do nothing. -/
def Store.addPair (key : String) (s : Store) (dk : String) (e : Emb) : Store :=
  if (s.documents_embeddings.lookup dk).isSome then s
  else
    { documents := s.documents ++ [[(key, Val.str dk)]],
      documents_embeddings := s.documents_embeddings ++ [(dk, e)] }

/-- `add(documents_embeddings)` over the whole mapping, in iteration order. -/
def Store.add (key : String) (s : Store) (pairs : List (String × Emb)) : Store :=
  pairs.foldl (fun acc p => acc.addPair key p.1 p.2) s

/-- `document[self.key]` for a stored record. -/
def recordKey (key : String) (r : Record) : String :=
  match r.lookup key with
  | some (Val.str s) => s
  | _ => ""

/-- `self.documents_embeddings[dk]` (line 166), with a junk default standing
for the store invariant that every stored record's key is bound. -/
def Store.embOf (s : Store) (dk : String) : Emb :=
  (s.documents_embeddings.lookup dk).getD []

/-- The stored embeddings in store (insertion) order, as fetched by the
comprehension at lines 164-171: one per record of `self.documents`. -/
def Store.storedEmbeddings (key : String) (s : Store) : List Emb :=
  s.documents.map (fun r => s.embOf (recordKey key r))

/-- `__call__(queries_embeddings, batch_size, k)` (lines 115-187): score every
query over the stored documents, then `_rank`. -/
def colbertCall (key : String) (s : Store) (queries : List Emb) (bs : Nat)
    (k : Option Int) : Option (List (List Record)) :=
  match optMap (fun q => queryScores q (s.storedEmbeddings key) bs) queries with
  | none => none
  | some scores => colbertRank s.documents scores k

/-- Spec-side scoring formula (spec 4.2, claim C1): the sum over query-token
index `s` of the maximum over document-token index `t` of
`dot(query_token_s, doc_token_t)`, stated with mathlib's `Finset` sum and
(non-empty) supremum rather than the source's fold order. -/
def specMaxSim (q d : Emb) (hd : d ≠ []) : ℚ :=
  ∑ s in Finset.range q.length,
    (Finset.range d.length).sup'
      (Finset.nonempty_range_iff.mpr (fun h => hd (List.length_eq_zero.mp h)))
      (fun t => dot (q.getD s []) (d.getD t []))

/-- Spec-side ranking order (spec 4.3): the score vector sorted descending. -/
def sortDesc (qs : List ℚ) : List ℚ :=
  List.insertionSort descRel qs

/-! ## Helper lemmas: `optMap` -/

theorem optMap_length {f : α → Option β} :
    ∀ {l : List α} {ys : List β}, optMap f l = some ys → ys.length = l.length := by
  intro l
  induction l with
  | nil => intro ys h; simp [optMap] at h; simp [← h]
  | cons a as ih =>
    intro ys h
    cases hfa : f a with
    | none => simp [optMap, hfa] at h
    | some b =>
      cases hrest : optMap f as with
      | none => simp [optMap, hfa, hrest] at h
      | some bs =>
        simp [optMap, hfa, hrest] at h
        simp [← h, ih hrest]

theorem optMap_getD {f : α → Option β} :
    ∀ {l : List α} {ys : List β}, optMap f l = some ys →
      ∀ (i : ℕ) (da : α) (db : β), i < l.length →
        f (l.getD i da) = some (ys.getD i db) := by
  intro l
  induction l with
  | nil => intro ys _ i _ _ hi; simp at hi
  | cons a as ih =>
    intro ys h i da db hi
    cases hfa : f a with
    | none => simp [optMap, hfa] at h
    | some b =>
      cases hrest : optMap f as with
      | none => simp [optMap, hfa, hrest] at h
      | some bs =>
        simp [optMap, hfa, hrest] at h
        cases i with
        | zero => simp [← h, hfa]
        | succ j =>
          simp only [List.length_cons, Nat.succ_lt_succ_iff] at hi
          simp only [← h, List.getD_cons_succ]
          exact ih hrest j da db hi

theorem optMap_append {f : α → Option β} {l₁ l₂ : List α} {ys₁ ys₂ : List β}
    (h₁ : optMap f l₁ = some ys₁) (h₂ : optMap f l₂ = some ys₂) :
    optMap f (l₁ ++ l₂) = some (ys₁ ++ ys₂) := by
  induction l₁ generalizing ys₁ with
  | nil => simp [optMap] at h₁; simp [← h₁, h₂]
  | cons a as ih =>
    cases hfa : f a with
    | none => simp [optMap, hfa] at h₁
    | some b =>
      cases hrest : optMap f as with
      | none => simp [optMap, hfa, hrest] at h₁
      | some bs =>
        simp [optMap, hfa, hrest] at h₁
        simp [optMap, hfa, ih hrest, ← h₁]

theorem optMap_none_of_mem {f : α → Option β} {l : List α} {a : α}
    (ha : a ∈ l) (hf : f a = none) : optMap f l = none := by
  induction l with
  | nil => simp at ha
  | cons x xs ih =>
    rcases List.mem_cons.mp ha with rfl | hmem
    · simp [optMap, hf]
    · cases hfx : f x with
      | none => simp [optMap, hfx]
      | some b => simp [optMap, hfx, ih hmem]

theorem optMap_of_forall_some {f : α → Option β} {g : α → β} {l : List α}
    (h : ∀ a ∈ l, f a = some (g a)) : optMap f l = some (l.map g) := by
  induction l with
  | nil => simp [optMap]
  | cons a as ih =>
    have ha := h a (List.mem_cons_self a as)
    have hrest := ih (fun x hx => h x (List.mem_cons_of_mem a hx))
    simp [optMap, ha, hrest]

/-! ## Helper lemmas: `batchify` -/

theorem batchifyAux_flatten {bs : Nat} (hbs : 0 < bs) :
    ∀ (fuel : Nat) (xs : List α), xs.length ≤ fuel →
      (batchifyAux bs fuel xs).flatten = xs := by
  intro fuel
  induction fuel with
  | zero =>
    intro xs hxs
    have : xs = [] := List.length_eq_zero.mp (Nat.le_zero.mp hxs)
    simp [this, batchifyAux]
  | succ n ih =>
    intro xs hxs
    cases xs with
    | nil => simp [batchifyAux]
    | cons x xs =>
      have hdrop : ((x :: xs).drop bs).length ≤ n := by
        simp only [List.length_drop, List.length_cons]
        simp only [List.length_cons] at hxs
        omega
      simp [batchifyAux, ih _ hdrop]

theorem batchify_flatten {bs : Nat} (hbs : 0 < bs) (xs : List α) :
    (batchify bs xs).flatten = xs :=
  batchifyAux_flatten hbs xs.length xs (Nat.le_refl _)

/-! ## Helper lemmas: batch scoring -/

theorem stack_eq_some {b c : List Emb} (h : stack b = some c) :
    c = b ∧ b ≠ [] ∧ ∀ d₁ ∈ b, ∀ d₂ ∈ b, d₁.map List.length = d₂.map List.length := by
  cases b with
  | nil => simp [stack] at h
  | cons e es =>
    by_cases hall : ∀ x ∈ es, x.map List.length = e.map List.length
    · simp only [stack, dif_pos hall, Option.some.injEq] at h
      refine ⟨h.symm, List.cons_ne_nil e es, ?_⟩
      intro d₁ h₁ d₂ h₂
      have k₁ : d₁.map List.length = e.map List.length := by
        rcases List.mem_cons.mp h₁ with rfl | h₁'
        · rfl
        · exact hall d₁ h₁'
      have k₂ : d₂.map List.length = e.map List.length := by
        rcases List.mem_cons.mp h₂ with rfl | h₂'
        · rfl
        · exact hall d₂ h₂'
      rw [k₁, k₂]
    · simp [stack, hall] at h

theorem scoreBatch_eq_some {q : Emb} {b : List Emb} {v : List ℚ}
    (h : scoreBatch q b = some v) : optMap (maxSimScore q) b = some v := by
  cases hs : stack b with
  | none => simp [scoreBatch, hs] at h
  | some c =>
    have := (stack_eq_some hs).1
    subst this
    simpa [scoreBatch, hs] using h

theorem queryScores_eq_some {q : Emb} {docs : List Emb} {bs : Nat} {v : List ℚ}
    (hbs : 0 < bs) (h : queryScores q docs bs = some v) :
    optMap (maxSimScore q) docs = some v := by
  cases docs with
  | nil => simp [queryScores] at h
  | cons x xs =>
    rw [queryScores] at h
    cases hom : optMap (scoreBatch q) (batchify bs (x :: xs)) with
    | none => rw [hom] at h; simp at h
    | some bss =>
      rw [hom] at h
      simp only [Option.map_some', Option.some.injEq] at h
      subst h
      have key : ∀ (L : List (List Emb)) (out : List (List ℚ)),
          optMap (scoreBatch q) L = some out →
          optMap (maxSimScore q) L.flatten = some out.flatten := by
        intro L
        induction L with
        | nil => intro out hout; simp [optMap] at hout; subst hout; simp [optMap]
        | cons c cs ih =>
          intro out hout
          cases hc : scoreBatch q c with
          | none => simp [optMap, hc] at hout
          | some vc =>
            cases hcs : optMap (scoreBatch q) cs with
            | none => simp [optMap, hc, hcs] at hout
            | some vcs =>
              simp only [optMap, hc, hcs] at hout
              cases hout
              simpa using optMap_append (scoreBatch_eq_some hc) (ih vcs hcs)
      have := key (batchify bs (x :: xs)) bss hom
      rwa [batchify_flatten hbs] at this

/-! ## Helper lemmas: folds, maxima and indexed access -/

theorem le_foldl_max (l : List ℚ) : ∀ a : ℚ, a ≤ l.foldl max a := by
  induction l with
  | nil => intro a; simp
  | cons x xs ih =>
    intro a
    simpa using le_trans (le_max_left a x) (ih (max a x))

theorem mem_le_foldl_max (l : List ℚ) :
    ∀ (a b : ℚ), b ∈ l → b ≤ l.foldl max a := by
  induction l with
  | nil => intro a b hb; simp at hb
  | cons x xs ih =>
    intro a b hb
    rcases List.mem_cons.mp hb with rfl | hb'
    · simpa using le_trans (le_max_right a b) (le_foldl_max xs (max a b))
    · simpa using ih (max a x) b hb'

theorem foldl_max_cases (l : List ℚ) :
    ∀ a : ℚ, l.foldl max a = a ∨ l.foldl max a ∈ l := by
  induction l with
  | nil => intro a; simp
  | cons x xs ih =>
    intro a
    rcases ih (max a x) with hc | hc
    · rcases max_choice a x with hm | hm
      · exact Or.inl (by simpa [hm] using hc)
      · exact Or.inr (by simp only [List.foldl_cons]; rw [hc, hm]; exact
          List.mem_cons_self x xs)
    · exact Or.inr (List.mem_cons_of_mem x (by simpa using hc))

theorem getD_mem_of_lt {l : List α} {i : ℕ} (h : i < l.length) (da : α) :
    l.getD i da ∈ l := by
  induction l generalizing i with
  | nil => simp at h
  | cons x xs ih =>
    cases i with
    | zero => simp
    | succ j =>
      simp only [List.getD_cons_succ]
      exact List.mem_cons_of_mem x (ih (by simpa [Nat.succ_lt_succ_iff] using h))

theorem exists_getD_of_mem {l : List α} {b : α} (h : b ∈ l) (da : α) :
    ∃ i, i < l.length ∧ l.getD i da = b := by
  induction l with
  | nil => simp at h
  | cons x xs ih =>
    rcases List.mem_cons.mp h with rfl | h'
    · exact ⟨0, by simp, rfl⟩
    · obtain ⟨j, hj, hg⟩ := ih h'
      exact ⟨j + 1, by simpa [Nat.succ_lt_succ_iff] using hj, by
        simpa [List.getD_cons_succ] using hg⟩

theorem sum_map_getD (l : List α) (f : α → ℚ) (da : α) :
    (l.map f).sum = ∑ s in Finset.range l.length, f (l.getD s da) := by
  induction l with
  | nil => simp
  | cons x xs ih =>
    rw [List.map_cons, List.sum_cons, ih, List.length_cons, Finset.sum_range_succ']
    simp [add_comm]

theorem maxTokD_eq_sup' (qv : Vec) (d : Emb)
    (hne : (Finset.range d.length).Nonempty) (hd : d ≠ []) :
    maxTokD qv d = (Finset.range d.length).sup' hne
      (fun t => dot qv (d.getD t [])) := by
  cases d with
  | nil => exact absurd rfl hd
  | cons t ts =>
    have hfold : maxTokD qv (t :: ts) = (ts.map (dot qv)).foldl max (dot qv t) := by
      rw [maxTokD, List.foldl_map]
    apply le_antisymm
    · rcases foldl_max_cases (ts.map (dot qv)) (dot qv t) with hc | hc
      · rw [hfold, hc]
        exact Finset.le_sup'
          (fun t' => dot qv ((t :: ts).getD t' []))
          (Finset.mem_range.mpr (Nat.succ_pos ts.length))
      · obtain ⟨u, hu, hequ⟩ := List.mem_map.mp hc
        obtain ⟨j, hj, hgd⟩ := exists_getD_of_mem hu []
        rw [hfold, ← hequ, ← hgd]
        have hgs : ts.getD j [] = (t :: ts).getD (j + 1) [] := rfl
        rw [hgs]
        exact Finset.le_sup'
          (fun t' => dot qv ((t :: ts).getD t' []))
          (Finset.mem_range.mpr (by simpa [Nat.succ_lt_succ_iff] using hj))
    · apply Finset.sup'_le
      intro i hi
      rw [Finset.mem_range] at hi
      cases i with
      | zero =>
        simp only [List.getD_cons_zero]
        rw [hfold]
        exact le_foldl_max _ _
      | succ j =>
        simp only [List.getD_cons_succ]
        have hj : j < ts.length := by simpa [Nat.succ_lt_succ_iff] using hi
        rw [hfold]
        exact mem_le_foldl_max _ _ _
          (List.mem_map_of_mem (dot qv) (getD_mem_of_lt hj []))

/-! ## Claim C1 -/

/-- C1: for a query embedding with at least one token and a document embedding
with at least one token, the score the retriever computes for the pair
(`maxSimScore`, the per-document cell of
`einsum("sh,bth->bst").max(dim=2).values.sum(axis=1)` at lines 175-183) equals
the sum over query-token index `s` of the maximum over document-token index
`t` of the dot product of query token `s` with document token `t`
(`specMaxSim`). -/
theorem claim_C1 (q d : Emb) (hq : q ≠ []) (hd : d ≠ []) :
    maxSimScore q d = some (specMaxSim q d hd) := by
  cases d with
  | nil => exact absurd rfl hd
  | cons t ts =>
    rw [maxSimScore]
    congr 1
    rw [sum_map_getD q (fun qv => maxTokD qv (t :: ts)) []]
    unfold specMaxSim
    apply Finset.sum_congr rfl
    intro s _
    exact maxTokD_eq_sup' (q.getD s []) (t :: ts) _ (List.cons_ne_nil t ts)

/-- Witness for C1 at a concrete input: query `[[1, 0], [0, 1]]`, document
`[[3, 1], [2, 5]]`; both hypotheses hold and the score is `3 + 5 = 8`. -/
theorem claim_C1_witness :
    maxSimScore [[(1 : ℚ), 0], [0, 1]] [[3, 1], [2, 5]] =
      some (specMaxSim [[(1 : ℚ), 0], [0, 1]] [[3, 1], [2, 5]]
        (List.cons_ne_nil _ _)) :=
  claim_C1 [[(1 : ℚ), 0], [0, 1]] [[3, 1], [2, 5]]
    (List.cons_ne_nil _ _) (List.cons_ne_nil _ _)

/-! ## Claim C2 -/

theorem queryScores_single {q d : Emb} {y : ℚ} (h : maxSimScore q d = some y) :
    queryScores q [d] 1 = some [y] := by
  have hb : batchify 1 [d] = [[d]] := rfl
  have hst : stack [d] = some [d] := by simp [stack]
  simp [queryScores, hb, scoreBatch, hst, optMap, h]

/-- C2: the score of each stored document is independent of the batch size and
of the document's position within its batch.  Whenever the batched retrieval
pass (`queryScores`, lines 158-185) succeeds with score vector `v` for some
batch size, every entry of `v` equals the single-document score of the
corresponding stored document (`maxSimScore`, and equivalently a retrieval
pass over that document alone with batch size 1). -/
theorem claim_C2 (q : Emb) (docs : List Emb) (bs : Nat) (v : List ℚ)
    (hbs : 0 < bs) (hv : queryScores q docs bs = some v) :
    v.length = docs.length ∧
    ∀ i : ℕ, i < docs.length →
      maxSimScore q (docs.getD i []) = some (v.getD i 0) ∧
      queryScores q [docs.getD i []] 1 = some [v.getD i 0] := by
  have hm := queryScores_eq_some hbs hv
  refine ⟨optMap_length hm, ?_⟩
  intro i hi
  have h1 := optMap_getD hm i [] 0 hi
  exact ⟨h1, queryScores_single h1⟩

/-- Witness for C2: three one-token documents scored with batch size 2 give
the vector `[2, 3, 4]`, and each entry agrees with the document scored
alone. -/
theorem claim_C2_witness :
    [(2 : ℚ), 3, 4].length = [[[(2 : ℚ)]], [[3]], [[4]]].length ∧
    ∀ i : ℕ, i < [[[(2 : ℚ)]], [[3]], [[4]]].length →
      maxSimScore [[(1 : ℚ)]] ([[[(2 : ℚ)]], [[3]], [[4]]].getD i []) =
        some ([(2 : ℚ), 3, 4].getD i 0) ∧
      queryScores [[(1 : ℚ)]] [[[[(2 : ℚ)]], [[3]], [[4]]].getD i []] 1 =
        some [[(2 : ℚ), 3, 4].getD i 0] :=
  claim_C2 [[(1 : ℚ)]] [[[(2 : ℚ)]], [[3]], [[4]]] 2 [(2 : ℚ), 3, 4]
    (by norm_num)
    (by norm_num [queryScores, batchify, batchifyAux, scoreBatch, stack, optMap,
      maxSimScore, maxTokD, dot])

/-! ## Claims C10 and C7 -/

theorem queryScores_none_of_batch {q : Emb} {docs : List Emb} {bs : Nat}
    {b : List Emb} (hb : b ∈ batchify bs docs) (hnone : scoreBatch q b = none) :
    queryScores q docs bs = none := by
  cases docs with
  | nil => simp [queryScores]
  | cons x xs =>
    simp only [queryScores, optMap_none_of_mem hb hnone, Option.map_none']

theorem scoreBatch_none_of_ragged {q : Emb} {b : List Emb} {d₁ d₂ : Emb}
    (h₁ : d₁ ∈ b) (h₂ : d₂ ∈ b) (hne : d₁.length ≠ d₂.length) :
    scoreBatch q b = none := by
  cases hs : stack b with
  | none => simp [scoreBatch, hs]
  | some c =>
    obtain ⟨-, -, hsh⟩ := stack_eq_some hs
    have hmap := hsh d₁ h₁ d₂ h₂
    have : d₁.length = d₂.length := by
      have := congrArg List.length hmap
      simpa using this
    exact absurd this hne

/-- C10: within one batch all document embeddings must share one
token-sequence length: if a batch produced by the orchestrator contains two
stored documents with different token counts, `torch.stack` (line 163) fails
and the retrieval pass returns no scores. -/
theorem claim_C10 (q : Emb) (docs : List Emb) (bs : Nat) (b : List Emb)
    (d₁ d₂ : Emb) (hb : b ∈ batchify bs docs) (h₁ : d₁ ∈ b) (h₂ : d₂ ∈ b)
    (hne : d₁.length ≠ d₂.length) :
    queryScores q docs bs = none :=
  queryScores_none_of_batch hb (scoreBatch_none_of_ragged h₁ h₂ hne)

/-- Witness for C10: a store with a one-token and a two-token document,
batch size 2 — both land in the same batch and the call fails. -/
theorem claim_C10_witness :
    queryScores [[(1 : ℚ)]] [[[1]], [[1], [2]]] 2 = none :=
  claim_C10 [[(1 : ℚ)]] [[[1]], [[1], [2]]] 2 [[[1]], [[1], [2]]]
    [[1]] [[1], [2]]
    (List.mem_cons_self _ _)
    (List.mem_cons_self _ _)
    (List.mem_cons_of_mem _ (List.mem_cons_self _ _))
    (by decide)

theorem scoreBatch_none_of_empty_doc {q : Emb} {b : List Emb}
    (hmem : ([] : Emb) ∈ b) : scoreBatch q b = none := by
  cases hs : stack b with
  | none => simp [scoreBatch, hs]
  | some c =>
    obtain ⟨hcb, -, -⟩ := stack_eq_some hs
    subst hcb
    simp only [scoreBatch, hs]
    exact optMap_none_of_mem hmem rfl

/-- Counterexample to C7: a query embedding with zero tokens does not make
scoring fail — the call succeeds and returns exactly the score `0` the claim
rules out (torch sums over the empty query-token axis). -/
theorem claim_C7_counterexample :
    queryScores ([] : Emb) [[[(1 : ℚ)]]] 1 = some [0] := by
  norm_num [queryScores, batchify, batchifyAux, scoreBatch, stack, optMap,
    maxSimScore]

/-- C7 (amended): a document embedding with zero tokens makes the retrieval
pass fail (the `max(dim=2)` reduction has a zero-size axis, or `torch.stack`
fails when the batch mixes shapes); a query embedding with zero tokens does
not fail — every document then receives score `0`. -/
theorem claim_C7 (q : Emb) (docs : List Emb) (bs : Nat) (hbs : 0 < bs) :
    (([] : Emb) ∈ docs → queryScores q docs bs = none) ∧
    ∀ v : List ℚ, queryScores ([] : Emb) docs bs = some v →
      v = List.replicate docs.length 0 := by
  constructor
  · intro hmem
    rw [← batchify_flatten hbs docs] at hmem
    obtain ⟨b, hb, hdb⟩ := List.mem_flatten.mp hmem
    exact queryScores_none_of_batch hb (scoreBatch_none_of_empty_doc hdb)
  · intro v hv
    have hm := queryScores_eq_some hbs hv
    have hlen := optMap_length hm
    refine List.eq_replicate_iff.mpr ⟨by rw [hlen], ?_⟩
    intro b hbv
    obtain ⟨i, hi, hg⟩ := exists_getD_of_mem hbv 0
    have hms := optMap_getD hm i [] 0 (hlen ▸ hi)
    rw [hg] at hms
    cases hd : docs.getD i [] with
    | nil => rw [hd] at hms; exact absurd hms (by simp [maxSimScore])
    | cons t ts =>
      rw [hd] at hms
      have : some ((0 : ℚ)) = some b := by
        simpa [maxSimScore] using hms
      exact (Option.some.injEq _ _ ▸ this).symm

/-- Witness for C7 (amended): a store holding one zero-token document makes
the retrieval pass fail. -/
theorem claim_C7_witness :
    queryScores [[(1 : ℚ)]] [([] : Emb)] 1 = none :=
  (claim_C7 [[(1 : ℚ)]] [([] : Emb)] 1 (by norm_num)).1 (List.mem_cons_self _ _)

/-! ## Helper lemmas: `enumScores`, sorting and `torchTopk` -/

theorem map_getD_range :
    ∀ (l : List α) (da : α), (List.range l.length).map (fun i => l.getD i da) = l := by
  intro l da
  induction l with
  | nil => simp
  | cons x xs ih =>
    rw [List.length_cons, List.range_succ_eq_map, List.map_cons, List.map_map]
    have hcomp : ((fun i => (x :: xs).getD i da) ∘ Nat.succ) =
        fun i => xs.getD i da := by
      funext i
      simp
    rw [hcomp, ih, List.getD_cons_zero]

theorem enum_snd (qs : List ℚ) : (enumScores qs).map Prod.snd = qs := by
  rw [enumScores, List.map_map]
  exact map_getD_range qs 0

theorem enum_fst (qs : List ℚ) : (enumScores qs).map Prod.fst = List.range qs.length := by
  rw [enumScores, List.map_map]
  have hcomp : (Prod.fst ∘ fun i : ℕ => (i, qs.getD i 0)) = fun i : ℕ => i := by
    funext i
    rfl
  rw [hcomp]
  simp

theorem mem_enumScores {qs : List ℚ} {p : ℕ × ℚ} (h : p ∈ enumScores qs) :
    p.1 < qs.length ∧ p.2 = qs.getD p.1 0 := by
  obtain ⟨i, hi, rfl⟩ := List.mem_map.mp h
  exact ⟨List.mem_range.mp hi, rfl⟩

theorem rankRel_to_descRel {a b : ℕ × ℚ} (h : rankRel a b) : descRel a.2 b.2 := by
  rcases h with h | ⟨h, -⟩
  · exact le_of_lt h
  · exact le_of_eq h.symm

theorem sorted_snd (qs : List ℚ) :
    List.Sorted descRel ((List.insertionSort rankRel (enumScores qs)).map Prod.snd) :=
  List.Pairwise.map Prod.snd (fun _ _ h => rankRel_to_descRel h)
    (List.sorted_insertionSort rankRel (enumScores qs))

theorem snd_insertionSort_eq_sortDesc (qs : List ℚ) :
    (List.insertionSort rankRel (enumScores qs)).map Prod.snd = sortDesc qs := by
  have hperm : List.Perm ((List.insertionSort rankRel (enumScores qs)).map Prod.snd)
      (sortDesc qs) := by
    refine ((List.perm_insertionSort rankRel (enumScores qs)).map Prod.snd).trans ?_
    rw [enum_snd]
    exact (List.perm_insertionSort descRel qs).symm
  exact List.eq_of_perm_of_sorted hperm (sorted_snd qs)
    (List.sorted_insertionSort descRel qs)

theorem length_insertionSort_enum (qs : List ℚ) :
    (List.insertionSort rankRel (enumScores qs)).length = qs.length := by
  rw [List.length_insertionSort, enumScores, List.length_map, List.length_range]

/-! ## Claim C3 -/

/-- Counterexample to C3 as frozen: with two stored documents of bit-identical
score `1` and `k = 2`, the ranker succeeds and returns both with equal
`similarity` values `[1, 1]` — a non-increasing but not *strictly* descending
score sequence, while the claim promises strictly descending order. -/
theorem claim_C3_counterexample :
    rankOne [[("id", Val.str "a")], [("id", Val.str "b")]] [(1 : ℚ), 1] (some 2) =
      some [[("id", Val.str "a"), ("similarity", Val.num 1)],
            [("id", Val.str "b"), ("similarity", Val.num 1)]] ∧
    ¬ List.Chain' (fun a b : ℚ => b < a) [(1 : ℚ), 1] := by
  constructor
  · rfl
  · simp

/-- C3 (amended): for every score vector over the documents in the store and
every non-negative `k`, the ranker succeeds and returns exactly the `k`
largest scores — in descending (non-increasing) order, strict only between
distinct scores — attached to distinct stored documents whose scores they
are; if `k` exceeds the document count or is null, all documents are
returned; the output length is `min(k, document count)`. -/
theorem claim_C3 (documents : List Record) (qs : List ℚ) (k : Option Int)
    (hlen : qs.length = documents.length)
    (hk : ∀ kk : Int, k = some kk → 0 ≤ kk) :
    ∃ (sel : List (ℕ × ℚ)) (out : List Record),
      torchTopk qs (rankK documents k) = some sel ∧
      rankOne documents qs k = some out ∧
      out = sel.map
        (fun p => setKey (documents.getD p.1 []) "similarity" (Val.num p.2)) ∧
      (k = none → out.length = documents.length) ∧
      (∀ kk : Int, k = some kk → out.length = min kk.toNat documents.length) ∧
      sel.map Prod.snd = (sortDesc qs).take out.length ∧
      List.Sorted descRel (sel.map Prod.snd) ∧
      (sel.map Prod.fst).Nodup ∧
      ∀ p ∈ sel, p.1 < documents.length ∧ p.2 = qs.getD p.1 0 := by
  have hnn : (0 : Int) ≤ rankK documents k := by
    cases k with
    | none => exact Int.natCast_nonneg _
    | some kk => exact le_min (hk kk rfl) (Int.natCast_nonneg _)
  have hub : rankK documents k ≤ (qs.length : Int) := by
    cases k with
    | none => simp [rankK, hlen]
    | some kk => simp only [rankK]; rw [hlen]; exact min_le_right _ _
  set m : ℕ := (rankK documents k).toNat with hm
  set sel : List (ℕ × ℚ) :=
    (List.insertionSort rankRel (enumScores qs)).take m with hsel
  have htopk : torchTopk qs (rankK documents k) = some sel := by
    rw [torchTopk, if_neg (by omega)]
  have hselLen : sel.length = m := by
    rw [hsel, List.length_take, length_insertionSort_enum]
    omega
  have hmem : ∀ p ∈ sel, p.1 < documents.length ∧ p.2 = qs.getD p.1 0 := by
    intro p hp
    have hp1 : p ∈ List.insertionSort rankRel (enumScores qs) :=
      (List.take_sublist m _).subset hp
    have hp2 : p ∈ enumScores qs :=
      (List.perm_insertionSort rankRel (enumScores qs)).subset hp1
    obtain ⟨h1, h2⟩ := mem_enumScores hp2
    exact ⟨hlen ▸ h1, h2⟩
  refine ⟨sel,
    sel.map (fun p => setKey (documents.getD p.1 []) "similarity" (Val.num p.2)),
    htopk, ?_, rfl, ?_, ?_, ?_, ?_, ?_, hmem⟩
  · rw [rankOne, htopk]
    rfl
  · intro hkn
    subst hkn
    rw [List.length_map, hselLen, hm]
    simp [rankK]
  · intro kk hkk
    subst hkk
    rw [List.length_map, hselLen, hm]
    have h0 := hk kk rfl
    simp only [rankK]
    omega
  · rw [List.length_map, hselLen, hsel, List.map_take, snd_insertionSort_eq_sortDesc]
  · exact List.Pairwise.sublist
      (List.map_take Prod.snd (List.insertionSort rankRel (enumScores qs)) m ▸
        (List.take_sublist m _).map Prod.snd)
      (sorted_snd qs)
  · refine List.Nodup.sublist ((List.take_sublist m _).map Prod.fst) ?_
    have hperm := (List.perm_insertionSort rankRel (enumScores qs)).map Prod.fst
    rw [List.Perm.nodup_iff hperm, enum_fst]
    exact List.nodup_range _

/-- Witness for C3 (amended) at a concrete input: two documents with scores
`[3, 7]` and `k = 1`: the ranker returns the single highest-scoring
document. -/
theorem claim_C3_witness :
    ∃ (sel : List (ℕ × ℚ)) (out : List Record),
      torchTopk [(3 : ℚ), 7]
        (rankK [[("id", Val.str "a")], [("id", Val.str "b")]] (some 1)) = some sel ∧
      rankOne [[("id", Val.str "a")], [("id", Val.str "b")]] [(3 : ℚ), 7]
        (some 1) = some out ∧
      out = sel.map
        (fun p => setKey ([[("id", Val.str "a")], [("id", Val.str "b")]].getD p.1 [])
          "similarity" (Val.num p.2)) ∧
      (some (1 : Int) = none →
        out.length = [[("id", Val.str "a")], [("id", Val.str "b")]].length) ∧
      (∀ kk : Int, some (1 : Int) = some kk →
        out.length = min kk.toNat [[("id", Val.str "a")], [("id", Val.str "b")]].length) ∧
      sel.map Prod.snd = (sortDesc [(3 : ℚ), 7]).take out.length ∧
      List.Sorted descRel (sel.map Prod.snd) ∧
      (sel.map Prod.fst).Nodup ∧
      ∀ p ∈ sel, p.1 < [[("id", Val.str "a")], [("id", Val.str "b")]].length ∧
        p.2 = [(3 : ℚ), 7].getD p.1 0 :=
  claim_C3 [[("id", Val.str "a")], [("id", Val.str "b")]] [(3 : ℚ), 7] (some 1)
    rfl (by intro kk h; injection h with h; omega)

/-! ## Claim C8 -/

theorem torchTopk_none_iff (qs : List ℚ) (K : Int) :
    torchTopk qs K = none ↔ (K < 0 ∨ (qs.length : Int) < K) := by
  unfold torchTopk
  split <;> simp_all

theorem rankOne_zero (documents : List Record) (v : List ℚ) :
    rankOne documents v (some 0) = some [] := by
  have hK : rankK documents (some 0) = 0 :=
    min_eq_left (Int.natCast_nonneg _)
  rw [rankOne, hK, torchTopk, if_neg (by omega)]
  simp

/-- C8: the ranker fails exactly when the requested `k` is negative
(`torch.topk` rejects a negative `k`, which `min(k, len(documents))`
passes through); `k = 0` is valid and yields an empty ranked list for every
query, also on a non-empty store. -/
theorem claim_C8 (documents : List Record) (qs : List ℚ) (k : Option Int)
    (hlen : qs.length = documents.length) :
    (rankOne documents qs k = none ↔ ∃ kk : Int, k = some kk ∧ kk < 0) ∧
    rankOne documents qs (some 0) = some [] ∧
    ∀ scoresList : List (List ℚ),
      colbertRank documents scoresList (some 0) =
        some (scoresList.map (fun _ => ([] : List Record))) := by
  refine ⟨?_, rankOne_zero documents qs, ?_⟩
  · rw [rankOne, Option.map_eq_none', torchTopk_none_iff]
    cases k with
    | none =>
      simp only [rankK]
      constructor
      · intro h
        rw [hlen] at h
        omega
      · rintro ⟨kk, hkk, -⟩
        exact absurd hkk (by simp)
    | some kk =>
      simp only [rankK]
      constructor
      · intro h
        refine ⟨kk, rfl, ?_⟩
        rw [hlen] at h
        omega
      · rintro ⟨kk', hkk, hneg⟩
        injection hkk with hkk
        subst hkk
        left
        have : (0 : Int) ≤ (documents.length : Int) := Int.natCast_nonneg _
        omega
  · intro scoresList
    exact optMap_of_forall_some (fun v _ => rankOne_zero documents v)

/-- Witness for C8: two stored documents, scores `[1, 2]`; with `k = -1` the
ranker fails, with `k = 0` it returns an empty list for every query. -/
theorem claim_C8_witness :
    (rankOne [[("id", Val.str "a")], [("id", Val.str "b")]] [(1 : ℚ), 2]
        (some (-1)) = none ↔
      ∃ kk : Int, some (-1 : Int) = some kk ∧ kk < 0) ∧
    rankOne [[("id", Val.str "a")], [("id", Val.str "b")]] [(1 : ℚ), 2]
      (some 0) = some [] ∧
    ∀ scoresList : List (List ℚ),
      colbertRank [[("id", Val.str "a")], [("id", Val.str "b")]] scoresList
        (some 0) = some (scoresList.map (fun _ => ([] : List Record))) :=
  claim_C8 [[("id", Val.str "a")], [("id", Val.str "b")]] [(1 : ℚ), 2]
    (some (-1)) rfl

/-! ## Helper lemmas: record merge (`setKey`) -/

theorem lookup_map_update (r : Record) (k : String) (v : Val)
    (h : (r.lookup k).isSome) :
    (r.map (fun p => if p.1 = k then (k, v) else p)).lookup k = some v := by
  induction r with
  | nil => simp at h
  | cons a as ih =>
    obtain ⟨a1, a2⟩ := a
    by_cases hak : a1 = k
    · subst hak
      rw [List.map_cons]
      have hhead : (if ((a1, a2) : String × Val).1 = a1 then (a1, v) else (a1, a2)) =
          (a1, v) := if_pos rfl
      rw [hhead]
      simp [List.lookup]
    · have hbeq : (k == a1) = false := beq_eq_false_iff_ne.mpr (Ne.symm hak)
      rw [List.map_cons]
      have hhead : (if ((a1, a2) : String × Val).1 = k then (k, v) else (a1, a2)) =
          (a1, a2) := by
        simp [hak]
      rw [hhead]
      have h' : (as.lookup k).isSome := by
        simpa [List.lookup, hbeq] using h
      simpa [List.lookup, hbeq] using ih h'

theorem lookup_append_single (r : Record) (k : String) (v : Val)
    (h : r.lookup k = none) :
    (r ++ [(k, v)]).lookup k = some v := by
  induction r with
  | nil => simp [List.lookup]
  | cons a as ih =>
    obtain ⟨a1, a2⟩ := a
    have hbeq : (k == a1) = false := by
      cases hb : k == a1 with
      | false => rfl
      | true => simp [List.lookup, hb] at h
    have h' : as.lookup k = none := by
      simpa [List.lookup, hbeq] using h
    simpa [List.cons_append, List.lookup, hbeq] using ih h'

theorem setKey_lookup_self (r : Record) (k : String) (v : Val) :
    (setKey r k v).lookup k = some v := by
  by_cases h : (r.lookup k).isSome
  · rw [setKey, if_pos h]
    exact lookup_map_update r k v h
  · rw [setKey, if_neg h]
    exact lookup_append_single r k v (Option.not_isSome_iff_eq_none.mp h)

theorem lookup_map_update_ne (r : Record) (k : String) (v : Val) (f : String)
    (hf : f ≠ k) :
    (r.map (fun p => if p.1 = k then (k, v) else p)).lookup f = r.lookup f := by
  induction r with
  | nil => simp
  | cons a as ih =>
    obtain ⟨a1, a2⟩ := a
    by_cases hak : a1 = k
    · subst hak
      have hbeq : (f == a1) = false := beq_eq_false_iff_ne.mpr hf
      rw [List.map_cons]
      have hhead : (if ((a1, a2) : String × Val).1 = a1 then (a1, v) else (a1, a2)) =
          (a1, v) := if_pos rfl
      rw [hhead]
      simp [List.lookup, hbeq, ih]
    · rw [List.map_cons]
      have hhead : (if ((a1, a2) : String × Val).1 = k then (k, v) else (a1, a2)) =
          (a1, a2) := by
        simp [hak]
      rw [hhead]
      cases hb : f == a1 with
      | true => simp [List.lookup, hb]
      | false => simp [List.lookup, hb, ih]

theorem lookup_append_single_ne (r : Record) (k : String) (v : Val) (f : String)
    (hf : f ≠ k) :
    (r ++ [(k, v)]).lookup f = r.lookup f := by
  induction r with
  | nil =>
    have hbeq : (f == k) = false := beq_eq_false_iff_ne.mpr hf
    simp [List.lookup, hbeq]
  | cons a as ih =>
    obtain ⟨a1, a2⟩ := a
    cases hb : f == a1 with
    | true => simp [List.lookup, hb]
    | false => simp [List.lookup, hb, ih]

theorem setKey_lookup_ne (r : Record) (k : String) (v : Val) (f : String)
    (hf : f ≠ k) :
    (setKey r k v).lookup f = r.lookup f := by
  by_cases h : (r.lookup k).isSome
  · rw [setKey, if_pos h]
    exact lookup_map_update_ne r k v f hf
  · rw [setKey, if_neg h]
    exact lookup_append_single_ne r k v f hf

/-! ## Claim C9 -/

/-- C9: every object returned by the ranker is the stored record of the
selected document merged with a `similarity` field holding that document's
computed score: looking up `similarity` yields the score (also when the
record itself already has a `similarity` field — the computed value takes
precedence), and looking up any other field yields exactly the record's own
value for it. -/
theorem claim_C9 (documents : List Record) (qs : List ℚ) (k : Option Int)
    (out : List Record) (hlen : qs.length = documents.length)
    (hout : rankOne documents qs k = some out) :
    ∀ o ∈ out, ∃ i : ℕ, i < documents.length ∧
      o = setKey (documents.getD i []) "similarity" (Val.num (qs.getD i 0)) ∧
      o.lookup "similarity" = some (Val.num (qs.getD i 0)) ∧
      ∀ f : String, f ≠ "similarity" →
        o.lookup f = (documents.getD i []).lookup f := by
  cases ht : torchTopk qs (rankK documents k) with
  | none => rw [rankOne, ht] at hout; simp at hout
  | some sel =>
    rw [rankOne, ht] at hout
    simp only [Option.map_some', Option.some.injEq] at hout
    subst hout
    intro o ho
    obtain ⟨p, hp, rfl⟩ := List.mem_map.mp ho
    have hsel : sel =
        (List.insertionSort rankRel (enumScores qs)).take (rankK documents k).toNat := by
      revert ht
      unfold torchTopk
      split
      · intro ht; exact absurd ht (by simp)
      · intro ht
        injection ht with ht
        exact ht.symm
    have hp1 : p ∈ List.insertionSort rankRel (enumScores qs) :=
      (List.take_sublist _ _).subset (hsel ▸ hp)
    have hp2 : p ∈ enumScores qs :=
      (List.perm_insertionSort rankRel (enumScores qs)).subset hp1
    obtain ⟨hlt, hsnd⟩ := mem_enumScores hp2
    refine ⟨p.1, hlen ▸ hlt, by rw [hsnd], ?_, ?_⟩
    · rw [setKey_lookup_self, hsnd]
    · intro f hf
      exact setKey_lookup_ne _ _ _ _ hf

/-- Witness for C9: a store whose single record already carries a
`similarity` field; the computed score `5` overrides it in the output. -/
theorem claim_C9_witness :
    ∃ i : ℕ, i < [[("similarity", Val.str "x")]].length ∧
      [("similarity", Val.num (5 : ℚ))] =
        setKey ([[("similarity", Val.str "x")]].getD i []) "similarity"
          (Val.num ([(5 : ℚ)].getD i 0)) ∧
      List.lookup "similarity" [("similarity", Val.num (5 : ℚ))] =
        some (Val.num ([(5 : ℚ)].getD i 0)) ∧
      ∀ f : String, f ≠ "similarity" →
        List.lookup f [("similarity", Val.num (5 : ℚ))] =
          ([[("similarity", Val.str "x")]].getD i []).lookup f :=
  claim_C9 [[("similarity", Val.str "x")]] [(5 : ℚ)] none
    [[("similarity", Val.num 5)]] rfl rfl
    [("similarity", Val.num (5 : ℚ))] (List.mem_cons_self _ _)

/-! ## Claim C6 -/

/-- C6: adding an identifier that is already present in the store is a silent
no-op — the store (both the record list and the embedding mapping, hence the
first inserted embedding and record) is left unchanged, whatever the new
embedding is. -/
theorem claim_C6 (key : String) (s : Store) (dk : String) (e : Emb)
    (h : (s.documents_embeddings.lookup dk).isSome) :
    s.addPair key dk e = s := by
  rw [Store.addPair, if_pos h]

/-- Witness for C6: re-adding identifier `a` with a different embedding
leaves the one-document store unchanged. -/
theorem claim_C6_witness :
    Store.addPair "id" ⟨[[("id", Val.str "a")]], [("a", [[1]])]⟩ "a" [[5]] =
      ⟨[[("id", Val.str "a")]], [("a", [[1]])]⟩ :=
  claim_C6 "id" ⟨[[("id", Val.str "a")]], [("a", [[1]])]⟩ "a" [[5]] rfl

/-! ## Claim C5 -/

/-- C5: a successful retrieval call returns one ranked result per query, the
`j`-th obtained by ranking the `j`-th query's full score vector; that vector
has one entry per stored document, its `i`-th entry being the `j`-th query's
score against the `i`-th inserted document's embedding (concatenation of the
per-batch score vectors follows store insertion order). -/
theorem claim_C5 (key : String) (s : Store) (queries : List Emb) (bs : Nat)
    (k : Option Int) (out : List (List Record)) (hbs : 0 < bs)
    (hcall : colbertCall key s queries bs k = some out) :
    out.length = queries.length ∧
    ∀ j : ℕ, j < queries.length → ∃ v : List ℚ,
      queryScores (queries.getD j []) (s.storedEmbeddings key) bs = some v ∧
      v.length = s.documents.length ∧
      (∀ i : ℕ, i < s.documents.length →
        maxSimScore (queries.getD j []) ((s.storedEmbeddings key).getD i []) =
          some (v.getD i 0)) ∧
      rankOne s.documents v k = some (out.getD j []) := by
  cases hq : optMap (fun q => queryScores q (s.storedEmbeddings key) bs) queries with
  | none =>
    rw [colbertCall, hq] at hcall
    exact absurd hcall (by simp)
  | some scores =>
    rw [colbertCall, hq] at hcall
    unfold colbertRank at hcall
    have hlen1 : scores.length = queries.length := optMap_length hq
    have hlen2 : out.length = scores.length := optMap_length hcall
    refine ⟨hlen2.trans hlen1, ?_⟩
    intro j hj
    have hqj := optMap_getD hq j [] [] hj
    have hE : (s.storedEmbeddings key).length = s.documents.length := by
      rw [Store.storedEmbeddings, List.length_map]
    refine ⟨scores.getD j [], hqj, ?_, ?_, ?_⟩
    · rw [optMap_length (queryScores_eq_some hbs hqj), hE]
    · intro i hi
      exact optMap_getD (queryScores_eq_some hbs hqj) i [] 0 (by rw [hE]; exact hi)
    · exact optMap_getD hcall j [] [] (by rw [hlen1]; exact hj)

/-- Witness for C5: a two-document store and one single-token query; the call
succeeds and each conjunct is discharged by the theorem at this input. -/
theorem claim_C5_witness :
    [[[("id", Val.str "b"), ("similarity", Val.num (2 : ℚ))],
      [("id", Val.str "a"), ("similarity", Val.num (1 : ℚ))]]].length =
      [[[(1 : ℚ)]]].length ∧
    ∀ j : ℕ, j < [[[(1 : ℚ)]]].length → ∃ v : List ℚ,
      queryScores ([[[(1 : ℚ)]]].getD j [])
        (Store.storedEmbeddings "id"
          ⟨[[("id", Val.str "a")], [("id", Val.str "b")]],
            [("a", [[1]]), ("b", [[2]])]⟩) 1 = some v ∧
      v.length = [[("id", Val.str "a")], [("id", Val.str "b")]].length ∧
      (∀ i : ℕ, i < [[("id", Val.str "a")], [("id", Val.str "b")]].length →
        maxSimScore ([[[(1 : ℚ)]]].getD j [])
          ((Store.storedEmbeddings "id"
            ⟨[[("id", Val.str "a")], [("id", Val.str "b")]],
              [("a", [[1]]), ("b", [[2]])]⟩).getD i []) =
          some (v.getD i 0)) ∧
      rankOne [[("id", Val.str "a")], [("id", Val.str "b")]] v none =
        some ([[[("id", Val.str "b"), ("similarity", Val.num (2 : ℚ))],
          [("id", Val.str "a"), ("similarity", Val.num (1 : ℚ))]]].getD j []) :=
  claim_C5 "id"
    ⟨[[("id", Val.str "a")], [("id", Val.str "b")]], [("a", [[1]]), ("b", [[2]])]⟩
    [[[(1 : ℚ)]]] 1 none
    [[[("id", Val.str "b"), ("similarity", Val.num (2 : ℚ))],
      [("id", Val.str "a"), ("similarity", Val.num (1 : ℚ))]]]
    (by norm_num)
    (by
      have hE : Store.storedEmbeddings "id"
          ⟨[[("id", Val.str "a")], [("id", Val.str "b")]],
            [("a", [[1]]), ("b", [[2]])]⟩ = [[[1]], [[2]]] := rfl
      have hQ : queryScores [[(1 : ℚ)]] [[[1]], [[2]]] 1 = some [1, 2] := by
        norm_num [queryScores, batchify, batchifyAux, scoreBatch, stack, optMap,
          maxSimScore, maxTokD, dot]
      have hR : rankOne [[("id", Val.str "a")], [("id", Val.str "b")]]
          [(1 : ℚ), 2] none =
          some [[("id", Val.str "b"), ("similarity", Val.num 2)],
                [("id", Val.str "a"), ("similarity", Val.num 1)]] := rfl
      simp only [colbertCall, hE, optMap, hQ, colbertRank, hR])

end NeuralCherche
